import Mathlib

/-!
# RockPaperScissors-script: outcome rules and round protocol

A shallow embedding of the two scripts of the repository,
`src/GenerateKey.js` (namespace `GenerateKey`) and `src/demo.js`
(namespace `Demo`), followed by theorems about them.

JavaScript values are embedded as follows.
* A move name is a `String`; a value that may be `undefined` is an
  `Option String` with `none` for `undefined`.
* Array indices and the results of `indexOf` are `Int` (`-1` for "absent").
* `%` is the truncating remainder `Int.tmod`.
* Library primitives that the scripts only call (`crypto.createHmac`,
  the double arithmetic of `Math.floor(x * n)`, the string-to-number
  coercion) are fields of `Js.Runtime`; the values drawn from `Math.random`
  and `crypto.randomBytes` are arguments of `play`.
* Console output and the lines read from standard input are recorded as a
  list of events, in the order in which they happen.
-/

namespace Js

/-- The value of `moves.indexOf(move)`: the position of the first occurrence
of `move`, or `-1` when it does not occur. -/
def indexOf (moves : List String) (move : String) : Int :=
  if move ∈ moves then (List.indexOf move moves : Nat) else -1

/-- The value of `arr[k]` for a number `k` that is an integer: the element
at position `k`, `undefined` (`none`) outside `0 .. length-1`. -/
def index {α : Type} (arr : List α) (k : Int) : Option α :=
  if 0 ≤ k then arr.get? k.toNat else none

/-- The remainder operator `a % b` on integers (`b` not zero): the result
takes the sign of the dividend. -/
def rem (a b : Int) : Int := Int.tmod a b

/-- How the evaluation of an expression ends: with a value (`none` is
`undefined`) or with a thrown `TypeError`. -/
inductive Completion where
  | value (v : Option String)
  | typeError
  deriving DecidableEq, Repr

/-- The number that a string is coerced to by `-`, `>=` and `<=`, as far as
the scripts can tell numbers apart. -/
inductive Number where
  /-- An integer. -/
  | int (z : Int)
  /-- A finite number `x` that is not an integer, with `fl < x < fl + 1`. -/
  | fraction (fl : Int)
  /-- The value `NaN`. -/
  | nan
  /-- The value `Infinity`. -/
  | posInf
  /-- The value `-Infinity`. -/
  | negInf
  deriving DecidableEq, Repr

/-- The comparison `x >= n` for an integer `n`. -/
def Number.ge (x : Number) (n : Int) : Bool :=
  match x with
  | Number.int z => decide (n ≤ z)
  | Number.fraction fl => decide (n ≤ fl)
  | Number.nan => false
  | Number.posInf => true
  | Number.negInf => false

/-- The comparison `x <= n` for an integer `n`. -/
def Number.le (x : Number) (n : Int) : Bool :=
  match x with
  | Number.int z => decide (z ≤ n)
  | Number.fraction fl => decide (fl < n)
  | Number.nan => false
  | Number.posInf => false
  | Number.negInf => true

/-- The value of `arr[x - 1]`: only an integer `x` with `1 ≤ x ≤ length`
addresses an element, every other number gives `undefined`. -/
def indexMinusOne {α : Type} (arr : List α) (x : Number) : Option α :=
  match x with
  | Number.int z => index arr (z - 1)
  | _ => none

/-- The key handed to `crypto.createHmac('sha256', key)`. -/
inductive HmacKey where
  /-- A string, passed as it is. -/
  | text (s : String)
  /-- The buffer `Buffer.from(hex, 'hex')`. -/
  | hexBuffer (hex : String)
  deriving DecidableEq, Repr

/-- The library primitives the scripts call, for doubles of type `Dbl`. -/
structure Runtime (Dbl : Type) where
  /-- The value of `Math.floor(x * n)` for a double `x` and a length `n`. -/
  floorMul : Dbl → Nat → Int
  /-- The value of `crypto.createHmac('sha256', key).update(message).digest('hex')`. -/
  hmacSha256Hex : HmacKey → String → String
  /-- The number a string is coerced to. -/
  toNumber : String → Number

/-- One lower-case hexadecimal digit. -/
def hexDigit (d : Nat) : Char :=
  "0123456789abcdef".toList.getD d '0'

/-- The value of `buffer.toString('hex')` for the bytes of a buffer. -/
def toHex (bytes : List Nat) : String :=
  String.mk (List.flatten (bytes.map fun b => [hexDigit (b % 256 / 16), hexDigit (b % 16)]))

/-- The value of `s.toUpperCase()` for a string of ASCII characters. -/
def toUpperCase (s : String) : String :=
  String.mk (s.toList.map Char.toUpper)

/-- The number that a string of decimal digits is coerced to; the empty
string is coerced to `0`. Strings of any other shape are mapped to `NaN`
here: the concrete runs below do not use them. -/
def decimalToNumber (s : String) : Number :=
  if s.toList.all Char.isDigit then
    Number.int (s.toList.foldl (fun n c => 10 * n + ((c.toNat - 48 : Nat) : Int)) 0)
  else Number.nan

/-- A runtime for the concrete runs below. A double in `[0, 1)` is given by
its numerator `m` over `2 ^ 53`, and `Math.floor(x * n)` is computed without
rounding, which is exact for the doubles `0` and `1/2` used below. The HMAC
is not computed: its place is taken by a string that records the key and the
message. -/
def exampleRuntime : Runtime Nat :=
  Runtime.mk
    (fun m n => ((m * n / 2 ^ 53 : Nat) : Int))
    (fun key message =>
      match key with
      | HmacKey.text s => "hmac[text " ++ s ++ "][" ++ message ++ "]"
      | HmacKey.hexBuffer hex => "hmac[hex " ++ hex ++ "][" ++ message ++ "]")
    decimalToNumber

end Js

/-! ## `src/GenerateKey.js` -/

namespace GenerateKey

/-- The object built by `new Rule(moves)`. -/
structure Rule where
  moves : List String
  moveCount : Nat
  halfCount : Nat

/-- The constructor of `Rule`. -/
def Rule.new (moves : List String) : Rule :=
  Rule.mk moves moves.length (moves.length / 2)

/-- The method `Rule.determineWinner(playerMove, computerMove)`. With no
moves at all `% this.moveCount` is `NaN`, both comparisons are false and the
result is `'draw'`. -/
def Rule.determineWinner (r : Rule) (playerMove computerMove : String) : String :=
  let playerIndex := Js.indexOf r.moves playerMove
  let computerIndex := Js.indexOf r.moves computerMove
  if r.moveCount = 0 then "draw"
  else
    let difference := Js.rem (playerIndex - computerIndex + r.moveCount) r.moveCount
    if difference < r.halfCount then "player"
    else if difference > r.halfCount then "computer"
    else "draw"

/-- The body rows of `Table.generateTable()`: for each move, the move and
the results of `rule.determineWinner(move, opponentMove)` against every
move. The padding and the separator lines are left out. -/
def Table.generateTable (moves : List String) : List (String × List String) :=
  moves.map fun move =>
    (move, moves.map fun opponentMove => (Rule.new moves).determineWinner move opponentMove)

/-- The method `Cryptography.generateKey()`, for the bytes returned by
`crypto.randomBytes(32)`. -/
def Cryptography.generateKey (randomBytes : List Nat) : String :=
  Js.toHex randomBytes

/-- The method `Cryptography.calculateHMAC(key, message)`. -/
def Cryptography.calculateHMAC {Dbl : Type} (rt : Js.Runtime Dbl) (key message : String) :
    String :=
  rt.hmacSha256Hex (Js.HmacKey.text key) message

/-- What the script does that can be observed, one event per call. -/
inductive Event where
  /-- The call `console.log('HMAC:', hmac)`. -/
  | hmac (h : String)
  /-- The call `console.log('Available moves:')`. -/
  | availableMoves
  /-- A menu line: the number `index + 1` of a move, a dash and the move. -/
  | menuItem (n : Nat) (move : String)
  /-- The call `console.log('0 - Exit')`. -/
  | exitItem
  /-- The call `console.log('? - Help')`. -/
  | helpItem
  /-- The call `rl.question('Your choice: ', handleUserChoice)`. -/
  | question
  /-- A line of standard input is handed to `handleUserChoice`. -/
  | read (choice : String)
  /-- The call `console.log(table.generateTable())`. -/
  | table (rows : List (String × List String))
  /-- The call `console.log('Invalid choice. Please try again.')`. -/
  | invalidChoice
  /-- The line `Computer played:` with the computer move. -/
  | computerPlayed (move : String)
  /-- The line `You played:` with the player move. -/
  | youPlayed (move : String)
  /-- The line `Winner:` with the result of `determineWinner`. -/
  | winner (w : String)
  /-- The call `console.log('Key:', key)`. -/
  | key (k : String)
  /-- The call `rl.close()`. -/
  | close
  /-- The two `console.error` calls of the argument check. -/
  | usageError
  /-- The call `process.exit(code)`. -/
  | exit (code : Nat)
  /-- An uncaught `TypeError`. -/
  | typeError
  deriving DecidableEq, Repr

/-- The closure `showMenu` of `Game.play`. -/
def Game.showMenu (moves : List String) (hmac : String) : List Event :=
  [Event.hmac hmac, Event.availableMoves]
    ++ (moves.enum.map fun p => Event.menuItem (p.1 + 1) p.2)
    ++ [Event.exitItem, Event.helpItem]

/-- The closure `handleUserChoice` of `Game.play`. A move that is
`undefined` or the empty string is falsy and counts as an invalid choice. -/
def Game.handleUserChoice {Dbl : Type} (rt : Js.Runtime Dbl) (moves : List String)
    (computerMove key hmac : String) (choice : String) : List Event :=
  if choice = "0" then [Event.close]
  else if choice = "?" then
    [Event.table (Table.generateTable moves)] ++ Game.showMenu moves hmac
  else
    match Js.indexMinusOne moves (rt.toNumber choice) with
    | none => [Event.invalidChoice] ++ Game.showMenu moves hmac
    | some playerMove =>
      if playerMove = "" then [Event.invalidChoice] ++ Game.showMenu moves hmac
      else
        let winner := (Rule.new moves).determineWinner playerMove computerMove
        [Event.computerPlayed computerMove, Event.youPlayed playerMove, Event.winner winner,
          Event.key key, Event.close]

/-- The first statement of `Game.play`:
`this.moves[Math.floor(Math.random() * this.moves.length)]`, for the value
`random` returned by `Math.random()`. -/
def Game.drawComputerMove {Dbl : Type} (rt : Js.Runtime Dbl) (moves : List String)
    (random : Dbl) : Option String :=
  Js.index moves (rt.floorMul random moves.length)

/-- The method `Game.play()`, for the value `random` of `Math.random()`, the
bytes `randomBytes` of `crypto.randomBytes(32)` and the lines `stdin` of
standard input. `hmac.update` throws when the computer move is `undefined`.
`rl.question` is called once, so only the first line reaches
`handleUserChoice`. -/
def Game.play {Dbl : Type} (rt : Js.Runtime Dbl) (moves : List String) (random : Dbl)
    (randomBytes : List Nat) (stdin : List String) : List Event :=
  match Game.drawComputerMove rt moves random with
  | none => [Event.typeError]
  | some computerMove =>
    let key := Cryptography.generateKey randomBytes
    let hmac := Cryptography.calculateHMAC rt key computerMove
    [Event.hmac hmac] ++ Game.showMenu moves hmac ++ [Event.question]
      ++ match stdin with
        | [] => []
        | choice :: _ =>
          [Event.read choice] ++ Game.handleUserChoice rt moves computerMove key hmac choice

/-- The computer move that an event discloses, if it is the line
`Computer played:`. -/
def Event.disclosedMove (e : Event) : Option String :=
  match e with
  | Event.computerPlayed move => some move
  | _ => none

/-- The key that an event discloses, if it is the line `Key:`. -/
def Event.disclosedKey (e : Event) : Option String :=
  match e with
  | Event.key k => some k
  | _ => none

/-- The move list of the usage example of `GenerateKey.js`. -/
def exampleMoves : List String := ["Rock", "Paper", "Scissors", "Lizard", "Spock"]

/-- The top level of the script, for the arguments `args` after the script
name (`process.argv.slice(2)`). The interpreter path and the script path are
absolute paths, so `process.argv.includes('--help')` looks among `args`. -/
def main {Dbl : Type} (rt : Js.Runtime Dbl) (args : List String) (random : Dbl)
    (randomBytes : List Nat) (stdin : List String) : List Event :=
  if args.length < 3 ∨ args.length % 2 = 0 then [Event.usageError, Event.exit 1]
  else
    let moves := args
    if "--help" ∈ args then [Event.table (Table.generateTable moves)]
    else Game.play rt moves random randomBytes stdin

end GenerateKey

/-! ## `src/demo.js` -/

namespace Demo

/-- The table built by `createWinMatrix`: one row of cells per move. -/
abbrev Matrix := List (List String)

/-- The assignment `matrix[i][k] = v` for a row index `i` and a column
index `k` computed with `%`. Every index written by `createWinMatrix` lies
inside the row (`written_index_in_row`), so a write never extends a row. -/
def setCell (matrix : Matrix) (i : Nat) (k : Int) (v : String) : Matrix :=
  List.modify (fun row => if 0 ≤ k then row.set k.toNat v else row) i matrix

/-- The body of the inner loop of `createWinMatrix`:
`matrix[i][(i + j) % size] = 'Win'; matrix[i][(i - j + size) % size] = 'Lose'`. -/
def innerBody (size i : Nat) (matrix : Matrix) (j : Nat) : Matrix :=
  setCell
    (setCell matrix i (Js.rem ((i : Int) + j) size) "Win")
    i (Js.rem ((i : Int) - j + size) size) "Lose"

/-- The inner loop `for (let j = 1; j <= size / 2; j++)` for one row `i`.
For an integer `j`, `j <= size / 2` holds exactly when `j ≤ ⌊size / 2⌋`, so
`j` runs over `1, …, ⌊size / 2⌋`. -/
def innerLoop (size i : Nat) (matrix : Matrix) : Matrix :=
  (List.range' 1 (size / 2)).foldl (innerBody size i) matrix

/-- The method `Rules.createWinMatrix()`: a `size × size` table filled with
`'Draw'`, then the double loop over `i = 0 … size-1` and `j = 1 … ⌊size/2⌋`. -/
def Rules.createWinMatrix (moves : List String) : Matrix :=
  let size := moves.length
  let matrix : Matrix := List.replicate size (List.replicate size "Draw")
  (List.range size).foldl (fun m i => innerLoop size i m) matrix

/-- The object built by `new Rules(moves)`. -/
structure Rules where
  moves : List String
  winMatrix : Matrix

/-- The constructor of `Rules`. -/
def Rules.new (moves : List String) : Rules :=
  Rules.mk moves (Rules.createWinMatrix moves)

/-- The method `Rules.getResult(move1, move2)`, that is
`this.winMatrix[index1][index2]`. Reading a property of
`this.winMatrix[index1]` when that row is `undefined` raises a `TypeError`. -/
def Rules.getResult (r : Rules) (move1 move2 : String) : Js.Completion :=
  let index1 := Js.indexOf r.moves move1
  let index2 := Js.indexOf r.moves move2
  match Js.index r.winMatrix index1 with
  | none => Js.Completion.typeError
  | some row => Js.Completion.value (Js.index row index2)

/-- The method `KeyGenerator.generateKey()`, for the bytes returned by
`crypto.randomBytes(32)`. -/
def KeyGenerator.generateKey (randomBytes : List Nat) : String :=
  Js.toUpperCase (Js.toHex randomBytes)

/-- The method `KeyGenerator.calculateHMAC(key, message)`. -/
def KeyGenerator.calculateHMAC {Dbl : Type} (rt : Js.Runtime Dbl) (key message : String) :
    String :=
  Js.toUpperCase (rt.hmacSha256Hex (Js.HmacKey.hexBuffer key) message)

/-- The line that `Game.play` prints for the result. -/
inductive Verdict where
  /-- The line `You win!`. -/
  | youWin
  /-- The line `You lose!`. -/
  | youLose
  /-- The line for a draw. -/
  | draw
  deriving DecidableEq, Repr

/-- What the script does that can be observed, one event per call. -/
inductive Event where
  /-- The call `console.log('Available moves:')`. -/
  | availableMoves
  /-- A menu line: the number `index + 1` of a move, a dash and the move. -/
  | menuItem (n : Nat) (move : String)
  /-- The call `console.log('0 - exit')`. -/
  | exitItem
  /-- The call `console.log('? - help')`. -/
  | helpItem
  /-- The call `rl.question('Enter your move: ', …)`. -/
  | question
  /-- A line of standard input is handed to the callback of `rl.question`. -/
  | read (input : String)
  /-- The help table printed by `displayHelp`: the moves and the win matrix. -/
  | help (moves : List String) (winMatrix : Matrix)
  /-- The call `console.log('Invalid move. Please try again.')`. -/
  | invalidMove
  /-- The line `HMAC:` with the HMAC. -/
  | hmac (h : String)
  /-- The line `Your move:` with the user move. -/
  | yourMove (move : String)
  /-- The line `Computer move:` with the computer move. -/
  | computerMove (move : String)
  /-- The line with the result of the round. -/
  | verdict (v : Verdict)
  /-- The line `HMAC key:` with the key. -/
  | hmacKey (k : String)
  /-- The call `rl.close()`. -/
  | close
  /-- An uncaught `TypeError`. -/
  | typeError
  deriving DecidableEq, Repr

/-- The object built by `new Game(moves)`; `computerMove` and `key` are
`undefined` until `play` assigns them. -/
structure Game where
  moves : List String
  rules : Rules
  computerMove : Option String
  key : Option String

/-- The constructor of `Game`. -/
def Game.new (moves : List String) : Game :=
  Game.mk moves (Rules.new moves) none none

/-- The method `Game.displayMenu()`. -/
def Game.displayMenu (g : Game) : List Event :=
  [Event.availableMoves]
    ++ (g.moves.enum.map fun p => Event.menuItem (p.1 + 1) p.2)
    ++ [Event.exitItem, Event.helpItem]

/-- The method `Game.displayHelp()`. -/
def Game.displayHelp (g : Game) : List Event :=
  [Event.help g.rules.moves g.rules.winMatrix]

/-- The first statement of `Game.play`:
`this.moves[Math.floor(Math.random() * this.moves.length)]`, for the value
`random` returned by `Math.random()`. -/
def Game.drawComputerMove {Dbl : Type} (rt : Js.Runtime Dbl) (g : Game) (random : Dbl) :
    Option String :=
  Js.index g.moves (rt.floorMul random g.moves.length)

/-- The method `Game.getHMAC()`; `none` stands for the `TypeError` that
`update` or `Buffer.from` throws on `undefined`. -/
def Game.getHMAC {Dbl : Type} (rt : Js.Runtime Dbl) (g : Game) : Option String :=
  match g.key, g.computerMove with
  | some key, some computerMove => some (KeyGenerator.calculateHMAC rt key computerMove)
  | _, _ => none

/-- The line printed for a result: `'Win'` and `'Lose'` have their own
lines, every other value is reported as a draw. -/
def Game.verdictOf (result : Option String) : Verdict :=
  if result = some "Win" then Verdict.youWin
  else if result = some "Lose" then Verdict.youLose
  else Verdict.draw

/-- The method `Game.play(userMove)`, for the value `random` of
`Math.random()` and the bytes `randomBytes` of `crypto.randomBytes(32)`: the
game with its fields assigned, and the events. An `undefined` user move has
index `-1`, so that `getResult` throws. -/
def Game.play {Dbl : Type} (rt : Js.Runtime Dbl) (g : Game) (userMove : Option String)
    (random : Dbl) (randomBytes : List Nat) : Game × List Event :=
  let g1 := Game.mk g.moves g.rules (Game.drawComputerMove rt g random) g.key
  let g2 := Game.mk g1.moves g1.rules g1.computerMove (some (KeyGenerator.generateKey randomBytes))
  match Game.getHMAC rt g2, g2.computerMove, g2.key with
  | some hmac, some computerMove, some key =>
    let result :=
      match userMove with
      | some move => g2.rules.getResult move computerMove
      | none => Js.Completion.typeError
    match result, userMove with
    | Js.Completion.value result, some move =>
      (g2, [Event.hmac hmac, Event.yourMove move, Event.computerMove computerMove,
        Event.verdict (Game.verdictOf result), Event.hmacKey key])
    | _, _ => (g2, [Event.typeError])
  | _, _, _ => (g2, [Event.typeError])

/-- The function `prompt` with the callback of `rl.question`, run on the
lines `stdin` of standard input. The round with number `round` takes
`random round` from `Math.random()` and `randomBytes round` from
`crypto.randomBytes(32)`. An uncaught `TypeError` ends the process. -/
def prompt {Dbl : Type} (rt : Js.Runtime Dbl) (random : Nat → Dbl) (randomBytes : Nat → List Nat) :
    Game → Nat → List String → List Event
  | _, _, [] => [Event.question]
  | game, round, input :: rest =>
    [Event.question, Event.read input] ++
      if input = "?" then
        Game.displayHelp game ++ prompt rt random randomBytes game round rest
      else if input = "0" then [Event.close]
      else if (rt.toNumber input).ge 1 && (rt.toNumber input).le game.moves.length then
        let userMove := Js.indexMinusOne game.moves (rt.toNumber input)
        let played := Game.play rt game userMove (random round) (randomBytes round)
        if Event.typeError ∈ played.2 then played.2
        else played.2 ++ prompt rt random randomBytes played.1 (round + 1) rest
      else
        [Event.invalidMove] ++ Game.displayMenu game
          ++ prompt rt random randomBytes game round rest

/-- The top level of the script after the argument parsing, for the moves
`moves` that the parser returned. -/
def main {Dbl : Type} (rt : Js.Runtime Dbl) (moves : List String) (random : Nat → Dbl)
    (randomBytes : Nat → List Nat) (stdin : List String) : List Event :=
  let game := Game.new moves
  Game.displayMenu game ++ prompt rt random randomBytes game 0 stdin

/-- The computer move that an event discloses, if it is the line
`Computer move:`. -/
def Event.disclosedMove (e : Event) : Option String :=
  match e with
  | Event.computerMove move => some move
  | _ => none

/-- The key that an event discloses, if it is the line `HMAC key:`. -/
def Event.disclosedKey (e : Event) : Option String :=
  match e with
  | Event.hmacKey k => some k
  | _ => none

/-- An output in which every HMAC line comes directly after a line read
from standard input. -/
def HmacFollowsRead (events : List Event) : Prop :=
  ∀ (n : Nat) (h : String), events[n]? = some (Event.hmac h) →
    ∃ input, 0 < n ∧ events[n - 1]? = some (Event.read input)

/-- The classic rock-paper-scissors-lizard-Spock truth table, as the
specification words it: `classicBeats a b` holds when `a` beats `b`. -/
def classicBeats (a b : String) : Bool :=
  decide ((a, b) ∈ [("rock", "scissors"), ("rock", "lizard"), ("paper", "rock"),
    ("paper", "Spock"), ("scissors", "paper"), ("scissors", "lizard"),
    ("lizard", "Spock"), ("lizard", "paper"), ("Spock", "scissors"), ("Spock", "rock")])

/-- The move list of the usage example of `demo.js`. -/
def exampleMoves : List String := ["rock", "Spock", "paper", "lizard", "scissors"]

/-- The two writes of one pass of the inner loop, on the row itself. -/
def rowWrite (size i : Nat) (row : List String) (j : Nat) : List String :=
  (row.set ((i + j) % size) "Win").set ((i + size - j) % size) "Lose"

end Demo

/-! ## Theorems -/

/-! ### Arithmetic of indices and remainders -/

namespace Js

theorem rem_natCast (a b : Nat) : rem (a : Int) (b : Int) = ((a % b : Nat) : Int) := by
  unfold rem
  rw [Int.tmod_eq_emod (Int.ofNat_nonneg a) (Int.ofNat_nonneg b)]
  norm_cast

theorem index_natCast {α : Type} (arr : List α) (k : Nat) : index arr (k : Int) = arr[k]? := by
  simp [index]

theorem indexOf_getElem {moves : List String} (hnd : moves.Nodup) {i : Nat} {a : String}
    (h : moves[i]? = some a) : indexOf moves a = (i : Int) := by
  obtain ⟨hi, rfl⟩ := List.getElem?_eq_some.mp h
  have hmem : moves[i] ∈ moves := List.getElem_mem hi
  simp only [indexOf, hmem, if_true]
  rw [List.indexOf_getElem hnd i hi]

/-- For `a < 2 * n` the remainder `a % n` takes off at most one `n`. -/
theorem mod_once {a n : Nat} (h : a < 2 * n) : a % n < n ∧ (a % n = a ∨ a % n + n = a) := by
  have hn : 0 < n := by omega
  refine ⟨Nat.mod_lt _ hn, ?_⟩
  by_cases h1 : a < n
  · exact Or.inl (Nat.mod_eq_of_lt h1)
  · refine Or.inr ?_
    have h2 : a = (a - n) + n := by omega
    rw [h2, Nat.add_mod_right, Nat.mod_eq_of_lt (by omega)]

/-- The remainder of `x + n - y` for `x < n` and `y ≤ n`, without subtraction. -/
theorem sub_mod_once {x y n : Nat} (hx : x < n) (hy : y ≤ n) :
    (x + n - y) % n < n ∧ ((x + n - y) % n + y = x + n ∨ (x + n - y) % n + y = x) := by
  have h := mod_once (show x + n - y < 2 * n by omega)
  omega

end Js

/-! ### `src/GenerateKey.js`: the outcome rule and the argument check -/

namespace GenerateKey

/-- C3 (`GenerateKey.js`): the claim fails on the code. With the moves
`Rock Paper Scissors`, `determineWinner('Rock', 'Rock')` is `'player'`, not
`'draw'`; the same holds for `Paper` and `Scissors`. -/
theorem determineWinner_same_move_is_player :
    (Rule.new ["Rock", "Paper", "Scissors"]).determineWinner "Rock" "Rock" = "player"
    ∧ (Rule.new ["Rock", "Paper", "Scissors"]).determineWinner "Paper" "Paper" = "player"
    ∧ (Rule.new ["Rock", "Paper", "Scissors"]).determineWinner "Scissors" "Scissors" = "player" := by
  decide

/-- C4 (`GenerateKey.js`): the claim fails on the code. With the moves
`Rock Paper Scissors`, `determineWinner('Paper', 'Rock')` is `'draw'` while
`determineWinner('Rock', 'Paper')` is `'computer'`: the two orders are not
strict opposites. -/
theorem determineWinner_not_opposite :
    (Rule.new ["Rock", "Paper", "Scissors"]).determineWinner "Paper" "Rock" = "draw"
    ∧ (Rule.new ["Rock", "Paper", "Scissors"]).determineWinner "Rock" "Paper" = "computer" := by
  decide

/-- In every list of at least two moves, `determineWinner` gives `'player'`
for a move of the list against itself: the difference is `0`, which is below
`halfCount`. -/
theorem determineWinner_self (moves : List String) (hlen : 2 ≤ moves.length) (m : String) :
    (Rule.new moves).determineWinner m m = "player" := by
  have hhalf : (0 : Int) < ((moves.length / 2 : Nat) : Int) := by
    have : 0 < moves.length / 2 := by omega
    exact_mod_cast this
  unfold Rule.determineWinner Rule.new
  simp only [sub_self, zero_add]
  rw [if_neg (by omega)]
  have hrem : Js.rem (moves.length : Int) (moves.length : Int) = 0 := by
    unfold Js.rem
    exact Int.tmod_self
  rw [hrem, if_pos hhalf]

/-- The argument check rejects a list of fewer than three or of an even
number of arguments. -/
theorem main_rejects_bad_count {Dbl : Type} (rt : Js.Runtime Dbl) (args : List String)
    (random : Dbl) (randomBytes : List Nat) (stdin : List String)
    (h : args.length < 3 ∨ args.length % 2 = 0) :
    main rt args random randomBytes stdin = [Event.usageError, Event.exit 1] := by
  unfold main
  rw [if_pos h]

/-- Every list of an odd number, at least three, of arguments without
`--help` reaches `Game.play`, with or without repeated names. -/
theorem main_plays_otherwise {Dbl : Type} (rt : Js.Runtime Dbl) (args : List String)
    (random : Dbl) (randomBytes : List Nat) (stdin : List String)
    (h3 : 3 ≤ args.length) (hodd : args.length % 2 = 1) (hhelp : "--help" ∉ args) :
    main rt args random randomBytes stdin = Game.play rt args random randomBytes stdin := by
  unfold main
  rw [if_neg (by omega)]
  simp only [hhelp, if_false]

/-- C5 (`GenerateKey.js`), counterexample: with the moves
`Rock Paper Scissors Lizard Spock` the claimed pair (winner `Spock`, loser
`Rock`) comes out the other way round: `determineWinner('Spock', 'Rock')` is
`'computer'` and `determineWinner('Rock', 'Spock')` is `'player'`. -/
theorem determineWinner_example_not_classic :
    (Rule.new exampleMoves).determineWinner "Spock" "Rock" = "computer"
    ∧ (Rule.new exampleMoves).determineWinner "Rock" "Spock" = "player" := by
  decide

/-- C5 (`GenerateKey.js`), amended: with the moves
`Rock Paper Scissors Lizard Spock`, `determineWinner` goes by the position in
the list. Each move wins against the move listed just before it on the
cycle, whichever side plays it: `Paper` beats `Rock` and `Scissors` beats
`Paper` (as claimed), `Rock` beats `Spock` and `Lizard` beats `Scissors`
(against the claim). For the claimed pairs two positions apart,
`determineWinner('Rock', 'Scissors')` and `determineWinner('Lizard', 'Rock')`
are `'computer'`. -/
theorem determineWinner_example_by_position :
    ((Rule.new exampleMoves).determineWinner "Paper" "Rock" = "player"
      ∧ (Rule.new exampleMoves).determineWinner "Rock" "Paper" = "computer")
    ∧ ((Rule.new exampleMoves).determineWinner "Scissors" "Paper" = "player"
      ∧ (Rule.new exampleMoves).determineWinner "Paper" "Scissors" = "computer")
    ∧ ((Rule.new exampleMoves).determineWinner "Rock" "Spock" = "player"
      ∧ (Rule.new exampleMoves).determineWinner "Spock" "Rock" = "computer")
    ∧ ((Rule.new exampleMoves).determineWinner "Lizard" "Scissors" = "player"
      ∧ (Rule.new exampleMoves).determineWinner "Scissors" "Lizard" = "computer")
    ∧ (Rule.new exampleMoves).determineWinner "Rock" "Scissors" = "computer"
    ∧ (Rule.new exampleMoves).determineWinner "Lizard" "Rock" = "computer" := by
  decide

/-- C9 (`GenerateKey.js`): the claim fails on the code. The arguments
`Rock Rock Paper` contain the same name twice, yet the script neither reports
an error nor exits: it runs `Game.play` on them, whatever the random values
and the input are, and with the choice `2` it plays the round to the end. -/
theorem main_accepts_duplicate_moves :
    (decide (["Rock", "Rock", "Paper"].Nodup) = false)
    ∧ (∀ (Dbl : Type) (rt : Js.Runtime Dbl) (random : Dbl) (randomBytes : List Nat)
        (stdin : List String),
        main rt ["Rock", "Rock", "Paper"] random randomBytes stdin
          = Game.play rt ["Rock", "Rock", "Paper"] random randomBytes stdin)
    ∧ main Js.exampleRuntime ["Rock", "Rock", "Paper"] 0 (List.replicate 32 0) ["2"]
        = [Event.hmac (Cryptography.calculateHMAC Js.exampleRuntime
              (Cryptography.generateKey (List.replicate 32 0)) "Rock"),
            Event.hmac (Cryptography.calculateHMAC Js.exampleRuntime
              (Cryptography.generateKey (List.replicate 32 0)) "Rock"),
            Event.availableMoves, Event.menuItem 1 "Rock", Event.menuItem 2 "Rock",
            Event.menuItem 3 "Paper", Event.exitItem, Event.helpItem, Event.question,
            Event.read "2", Event.computerPlayed "Rock", Event.youPlayed "Rock",
            Event.winner "player", Event.key (Cryptography.generateKey (List.replicate 32 0)),
            Event.close] := by
  refine ⟨by decide, ?_, by decide⟩
  intro Dbl rt random randomBytes stdin
  rfl

/-! ### `src/GenerateKey.js`: the round -/

/-- The events of `showMenu`: the HMAC line and menu lines, nothing else. -/
theorem mem_showMenu {moves : List String} {hmac : String} {e : Event}
    (he : e ∈ Game.showMenu moves hmac) :
    e = Event.hmac hmac ∨ e = Event.availableMoves ∨ (∃ n move, e = Event.menuItem n move)
      ∨ e = Event.exitItem ∨ e = Event.helpItem := by
  unfold Game.showMenu at he
  simp only [List.mem_append, List.mem_cons, List.mem_map, List.mem_singleton,
    List.not_mem_nil, or_false] at he
  rcases he with ((h | h) | ⟨p, _, h⟩) | h | h
  · exact Or.inl h
  · exact Or.inr (Or.inl h)
  · exact Or.inr (Or.inr (Or.inl ⟨_, _, h.symm⟩))
  · exact Or.inr (Or.inr (Or.inr (Or.inl h)))
  · exact Or.inr (Or.inr (Or.inr (Or.inr h)))

/-- The four ways in which `handleUserChoice` ends: exit, help, invalid
choice, or the reveal for the move that the choice selects. -/
theorem handleUserChoice_cases {Dbl : Type} (rt : Js.Runtime Dbl) (moves : List String)
    (computerMove key hmac choice : String) :
    Game.handleUserChoice rt moves computerMove key hmac choice = [Event.close]
    ∨ Game.handleUserChoice rt moves computerMove key hmac choice
        = [Event.table (Table.generateTable moves)] ++ Game.showMenu moves hmac
    ∨ Game.handleUserChoice rt moves computerMove key hmac choice
        = [Event.invalidChoice] ++ Game.showMenu moves hmac
    ∨ ∃ playerMove, Js.indexMinusOne moves (rt.toNumber choice) = some playerMove
        ∧ Game.handleUserChoice rt moves computerMove key hmac choice
          = [Event.computerPlayed computerMove, Event.youPlayed playerMove,
              Event.winner ((Rule.new moves).determineWinner playerMove computerMove),
              Event.key key, Event.close] := by
  unfold Game.handleUserChoice
  split
  · exact Or.inl rfl
  · split
    · exact Or.inr (Or.inl rfl)
    · split
      · exact Or.inr (Or.inr (Or.inl rfl))
      · next playerMove hpm =>
        split
        · exact Or.inr (Or.inr (Or.inl rfl))
        · exact Or.inr (Or.inr (Or.inr ⟨playerMove, hpm, rfl⟩))

theorem key_not_mem_showMenu (moves : List String) (hmac x : String) :
    Event.key x ∉ Game.showMenu moves hmac := by
  intro h
  rcases mem_showMenu h with h | h | ⟨_, _, h⟩ | h | h <;> cases h

theorem computerPlayed_not_mem_showMenu (moves : List String) (hmac x : String) :
    Event.computerPlayed x ∉ Game.showMenu moves hmac := by
  intro h
  rcases mem_showMenu h with h | h | ⟨_, _, h⟩ | h | h <;> cases h

theorem hmac_mem_showMenu {moves : List String} {hmac x : String}
    (h : Event.hmac x ∈ Game.showMenu moves hmac) : x = hmac := by
  rcases mem_showMenu h with h | h | ⟨_, _, h⟩ | h | h <;> cases h
  rfl

/-- Every HMAC line that `handleUserChoice` prints shows the HMAC computed
at the start of `play`. -/
theorem hmac_mem_handleUserChoice {Dbl : Type} (rt : Js.Runtime Dbl) (moves : List String)
    (computerMove key hmac choice x : String)
    (h : Event.hmac x ∈ Game.handleUserChoice rt moves computerMove key hmac choice) :
    x = hmac := by
  rcases handleUserChoice_cases rt moves computerMove key hmac choice
    with hc | hc | hc | ⟨playerMove, _, hc⟩
  · rw [hc] at h
    simp at h
  · rw [hc] at h
    simp only [List.mem_append, List.mem_singleton] at h
    rcases h with h | h
    · cases h
    · exact hmac_mem_showMenu h
  · rw [hc] at h
    simp only [List.mem_append, List.mem_singleton] at h
    rcases h with h | h
    · cases h
    · exact hmac_mem_showMenu h
  · rw [hc] at h
    simp at h

/-- Every HMAC line of a run of `play` shows the HMAC of the computer move
drawn at the start under the key generated at the start; this includes the
lines that `showMenu` repeats after a help request or an invalid choice. -/
theorem hmac_mem_play {Dbl : Type} (rt : Js.Runtime Dbl) (moves : List String)
    (random : Dbl) (randomBytes : List Nat) (stdin : List String) (x : String)
    (h : Event.hmac x ∈ Game.play rt moves random randomBytes stdin) :
    ∃ computerMove, Game.drawComputerMove rt moves random = some computerMove
      ∧ x = Cryptography.calculateHMAC rt (Cryptography.generateKey randomBytes)
          computerMove := by
  unfold Game.play at h
  cases hdraw : Game.drawComputerMove rt moves random with
  | none =>
    rw [hdraw] at h
    simp at h
  | some cm =>
    rw [hdraw] at h
    refine ⟨cm, rfl, ?_⟩
    simp only [List.mem_append, List.mem_singleton] at h
    rcases h with ((h | h) | h) | h
    · cases h
      rfl
    · exact hmac_mem_showMenu h
    · cases h
    · cases stdin with
      | nil => simp at h
      | cons choice rest =>
        simp only [List.mem_append, List.mem_singleton] at h
        rcases h with h | h
        · cases h
        · exact hmac_mem_handleUserChoice rt moves _ _ _ _ _ h

/-- C7 (`GenerateKey.js`): in every run of `Game.play` that reaches the
reveal, that is whose output has a line `Key: k` and a line
`Computer played: m`, the output splits into the part `published` printed
before the user is asked, the question with the line `choice` read, and the
part `revealed` printed after it, such that: `calculateHMAC(k, m)` is an HMAC
line of `published`; every HMAC line of the run shows this same value; no key
and no computer move is printed in `published`; `k` and `m` are printed in
`revealed`; and `k` is the key generated at the start and `m` the computer
move drawn at the start. -/
theorem reveal_reproduces_commitment {Dbl : Type} (rt : Js.Runtime Dbl) (moves : List String)
    (random : Dbl) (randomBytes : List Nat) (stdin : List String) (k m : String)
    (hk : Event.key k ∈ Game.play rt moves random randomBytes stdin)
    (hm : Event.computerPlayed m ∈ Game.play rt moves random randomBytes stdin) :
    ∃ (published revealed : List Event) (choice : String),
      Game.play rt moves random randomBytes stdin
        = published ++ [Event.question, Event.read choice] ++ revealed
      ∧ Event.hmac (Cryptography.calculateHMAC rt k m) ∈ published
      ∧ (∀ h, Event.hmac h ∈ Game.play rt moves random randomBytes stdin
          → h = Cryptography.calculateHMAC rt k m)
      ∧ (∀ x, Event.key x ∉ published ∧ Event.computerPlayed x ∉ published)
      ∧ Event.key k ∈ revealed ∧ Event.computerPlayed m ∈ revealed
      ∧ k = Cryptography.generateKey randomBytes
      ∧ Game.drawComputerMove rt moves random = some m := by
  unfold Game.play at hk hm ⊢
  cases hdraw : Game.drawComputerMove rt moves random with
  | none =>
    rw [hdraw] at hk
    simp at hk
  | some cm =>
    rw [hdraw] at hk hm
    simp only at hk hm ⊢
    cases stdin with
    | nil =>
      simp only [List.append_nil, List.mem_append, List.mem_singleton, List.mem_cons,
        List.not_mem_nil, or_false] at hk
      rcases hk with (hk | hk) | hk
      · cases hk
      · exact absurd hk (key_not_mem_showMenu _ _ _)
      · cases hk
    | cons choice rest =>
      simp only at hk hm ⊢
      rcases handleUserChoice_cases rt moves cm (Cryptography.generateKey randomBytes)
        (Cryptography.calculateHMAC rt (Cryptography.generateKey randomBytes) cm) choice
        with hc | hc | hc | ⟨playerMove, _, hc⟩
      · rw [hc] at hk
        simp only [List.mem_append, List.mem_singleton, List.mem_cons,
          List.not_mem_nil, or_false] at hk
        rcases hk with ((hk | hk) | hk) | hk | hk
        · cases hk
        · exact absurd hk (key_not_mem_showMenu _ _ _)
        · cases hk
        · cases hk
        · cases hk
      · rw [hc] at hk
        simp only [List.mem_append, List.mem_singleton, List.mem_cons,
          List.not_mem_nil, or_false] at hk
        rcases hk with ((hk | hk) | hk) | hk | hk | hk
        · cases hk
        · exact absurd hk (key_not_mem_showMenu _ _ _)
        · cases hk
        · cases hk
        · cases hk
        · exact absurd hk (key_not_mem_showMenu _ _ _)
      · rw [hc] at hk
        simp only [List.mem_append, List.mem_singleton, List.mem_cons,
          List.not_mem_nil, or_false] at hk
        rcases hk with ((hk | hk) | hk) | hk | hk | hk
        · cases hk
        · exact absurd hk (key_not_mem_showMenu _ _ _)
        · cases hk
        · cases hk
        · cases hk
        · exact absurd hk (key_not_mem_showMenu _ _ _)
      · rw [hc] at hk hm ⊢
        have hk2 : k = Cryptography.generateKey randomBytes := by
          simp only [List.mem_append, List.mem_singleton, List.mem_cons,
            List.not_mem_nil, or_false] at hk
          rcases hk with ((hk | hk) | hk) | hk | hk | hk | hk | hk | hk
          · cases hk
          · exact absurd hk (key_not_mem_showMenu _ _ _)
          · cases hk
          · cases hk
          · cases hk
          · cases hk
          · cases hk
          · cases hk
            rfl
          · cases hk
        have hm2 : m = cm := by
          simp only [List.mem_append, List.mem_singleton, List.mem_cons,
            List.not_mem_nil, or_false] at hm
          rcases hm with ((hm | hm) | hm) | hm | hm | hm | hm | hm | hm
          · cases hm
          · exact absurd hm (computerPlayed_not_mem_showMenu _ _ _)
          · cases hm
          · cases hm
          · cases hm
            rfl
          · cases hm
          · cases hm
          · cases hm
          · cases hm
        subst hk2 hm2
        refine ⟨[Event.hmac (Cryptography.calculateHMAC rt (Cryptography.generateKey randomBytes) m)]
            ++ Game.showMenu moves
              (Cryptography.calculateHMAC rt (Cryptography.generateKey randomBytes) m),
          [Event.computerPlayed m, Event.youPlayed playerMove,
            Event.winner ((Rule.new moves).determineWinner playerMove m),
            Event.key (Cryptography.generateKey randomBytes), Event.close],
          choice, ?_, ?_, ?_, ?_, ?_, ?_, rfl, rfl⟩
        · simp only [List.append_assoc, List.cons_append, List.nil_append]
        · simp
        · intro h hh
          simp only [List.mem_append, List.mem_singleton, List.mem_cons,
            List.not_mem_nil, or_false] at hh
          rcases hh with ((hh | hh) | hh) | hh | hh | hh | hh | hh | hh
          · cases hh
            rfl
          · exact hmac_mem_showMenu hh
          · cases hh
          · cases hh
          · cases hh
          · cases hh
          · cases hh
          · cases hh
          · cases hh
        · intro x
          constructor
          · intro hx
            simp only [List.mem_append, List.mem_singleton] at hx
            rcases hx with hx | hx
            · cases hx
            · exact absurd hx (key_not_mem_showMenu _ _ _)
          · intro hx
            simp only [List.mem_append, List.mem_singleton] at hx
            rcases hx with hx | hx
            · cases hx
            · exact absurd hx (computerPlayed_not_mem_showMenu _ _ _)
        · simp
        · simp

/-- C7, on the moves `Rock Paper Scissors` with `Math.random()` returning
`1/2` (computer move `Paper`), 32 zero bytes as the key and the choice `1`:
the run reaches the reveal, and the conclusion holds for it. -/
theorem reveal_reproduces_commitment_witness :
    Event.key (Cryptography.generateKey (List.replicate 32 0))
        ∈ Game.play Js.exampleRuntime ["Rock", "Paper", "Scissors"] (2 ^ 52)
            (List.replicate 32 0) ["1"]
    ∧ Event.computerPlayed "Paper"
        ∈ Game.play Js.exampleRuntime ["Rock", "Paper", "Scissors"] (2 ^ 52)
            (List.replicate 32 0) ["1"]
    ∧ ∃ (published revealed : List Event) (choice : String),
        Game.play Js.exampleRuntime ["Rock", "Paper", "Scissors"] (2 ^ 52)
            (List.replicate 32 0) ["1"]
          = published ++ [Event.question, Event.read choice] ++ revealed
        ∧ Event.hmac (Cryptography.calculateHMAC Js.exampleRuntime
            (Cryptography.generateKey (List.replicate 32 0)) "Paper") ∈ published
        ∧ (∀ h, Event.hmac h ∈ Game.play Js.exampleRuntime ["Rock", "Paper", "Scissors"]
              (2 ^ 52) (List.replicate 32 0) ["1"]
            → h = Cryptography.calculateHMAC Js.exampleRuntime
                (Cryptography.generateKey (List.replicate 32 0)) "Paper")
        ∧ (∀ x, Event.key x ∉ published ∧ Event.computerPlayed x ∉ published)
        ∧ Event.key (Cryptography.generateKey (List.replicate 32 0)) ∈ revealed
        ∧ Event.computerPlayed "Paper" ∈ revealed
        ∧ Cryptography.generateKey (List.replicate 32 0)
            = Cryptography.generateKey (List.replicate 32 0)
        ∧ Game.drawComputerMove Js.exampleRuntime ["Rock", "Paper", "Scissors"] (2 ^ 52)
            = some "Paper" :=
  ⟨by decide, by decide,
    reveal_reproduces_commitment Js.exampleRuntime ["Rock", "Paper", "Scissors"] (2 ^ 52)
      (List.replicate 32 0) ["1"] (Cryptography.generateKey (List.replicate 32 0)) "Paper"
      (by decide) (by decide)⟩

theorem filterMap_disclosedMove_showMenu (moves : List String) (hmac : String) :
    (Game.showMenu moves hmac).filterMap Event.disclosedMove = [] := by
  rw [List.filterMap_eq_nil_iff]
  intro e he
  rcases mem_showMenu he with h | h | ⟨_, _, h⟩ | h | h <;> subst h <;> rfl

/-- The computer move that `handleUserChoice` discloses does not depend on
the key or the HMAC. -/
theorem filterMap_disclosedMove_handleUserChoice {Dbl : Type} (rt : Js.Runtime Dbl)
    (moves : List String) (computerMove key1 hmac1 key2 hmac2 choice : String) :
    (Game.handleUserChoice rt moves computerMove key1 hmac1 choice).filterMap
        Event.disclosedMove
      = (Game.handleUserChoice rt moves computerMove key2 hmac2 choice).filterMap
        Event.disclosedMove := by
  unfold Game.handleUserChoice
  split
  · rfl
  · split
    · simp [List.filterMap_append, filterMap_disclosedMove_showMenu, Event.disclosedMove]
    · split
      · simp [List.filterMap_append, filterMap_disclosedMove_showMenu, Event.disclosedMove]
      · split
        · simp [List.filterMap_append, filterMap_disclosedMove_showMenu, Event.disclosedMove]
        · rfl

/-- The computer move that `play` discloses does not depend on the bytes of
`crypto.randomBytes`. -/
theorem filterMap_disclosedMove_play {Dbl : Type} (rt : Js.Runtime Dbl) (moves : List String)
    (random : Dbl) (bytes1 bytes2 : List Nat) (stdin : List String) :
    (Game.play rt moves random bytes1 stdin).filterMap Event.disclosedMove
      = (Game.play rt moves random bytes2 stdin).filterMap Event.disclosedMove := by
  unfold Game.play
  cases Game.drawComputerMove rt moves random with
  | none => rfl
  | some cm =>
    cases stdin with
    | nil =>
      simp [List.filterMap_append, filterMap_disclosedMove_showMenu, Event.disclosedMove]
    | cons choice rest =>
      simp only [List.filterMap_append, filterMap_disclosedMove_showMenu]
      rw [filterMap_disclosedMove_handleUserChoice rt moves cm
        (Cryptography.generateKey bytes1) _ (Cryptography.generateKey bytes2)
        (Cryptography.calculateHMAC rt (Cryptography.generateKey bytes2) cm)]
      rfl

theorem filterMap_disclosedKey_showMenu (moves : List String) (hmac : String) :
    (Game.showMenu moves hmac).filterMap Event.disclosedKey = [] := by
  rw [List.filterMap_eq_nil_iff]
  intro e he
  rcases mem_showMenu he with h | h | ⟨_, _, h⟩ | h | h <;> subst h <;> rfl

/-- The only key that `play` can disclose is the hexadecimal form of the bytes
of `crypto.randomBytes`, whatever `Math.random` returns. -/
theorem filterMap_disclosedKey_play {Dbl : Type} (rt : Js.Runtime Dbl) (moves : List String)
    (random : Dbl) (bytes : List Nat) (stdin : List String) :
    (Game.play rt moves random bytes stdin).filterMap Event.disclosedKey = []
      ∨ (Game.play rt moves random bytes stdin).filterMap Event.disclosedKey
          = [Js.toHex bytes] := by
  unfold Game.play
  cases Game.drawComputerMove rt moves random with
  | none => exact Or.inl rfl
  | some cm =>
    cases stdin with
    | nil =>
      left
      simp [List.filterMap_append, filterMap_disclosedKey_showMenu, Event.disclosedKey]
    | cons choice rest =>
      simp only [List.filterMap_append, filterMap_disclosedKey_showMenu]
      rcases handleUserChoice_cases rt moves cm (Cryptography.generateKey bytes)
        (Cryptography.calculateHMAC rt (Cryptography.generateKey bytes) cm) choice
        with hc | hc | hc | ⟨playerMove, _, hc⟩
      · left
        rw [hc]
        rfl
      · left
        rw [hc]
        simp [List.filterMap_append, filterMap_disclosedKey_showMenu, Event.disclosedKey]
      · left
        rw [hc]
        simp [List.filterMap_append, filterMap_disclosedKey_showMenu, Event.disclosedKey]
      · right
        rw [hc]
        rfl

end GenerateKey

/-! ### `src/demo.js`: the win matrix -/

namespace Demo

/-- The two column indices written in a pass of the inner loop lie inside
the row. -/
theorem written_index_in_row (size i j : Nat) (hi : i < size) (hj : j ≤ size) :
    (0 ≤ Js.rem ((i : Int) + j) size ∧ Js.rem ((i : Int) + j) size < size)
    ∧ (0 ≤ Js.rem ((i : Int) - j + size) size ∧ Js.rem ((i : Int) - j + size) size < size) := by
  have hpos : 0 < size := by omega
  have h1 : Js.rem ((i : Int) + j) size = (((i + j) % size : Nat) : Int) := by
    rw [← Js.rem_natCast]; norm_cast
  have h2 : Js.rem ((i : Int) - j + size) size = (((i + size - j) % size : Nat) : Int) := by
    rw [← Js.rem_natCast]
    congr 1
    omega
  have b1 : (i + j) % size < size := Nat.mod_lt _ hpos
  have b2 : (i + size - j) % size < size := Nat.mod_lt _ hpos
  rw [h1, h2]
  omega

theorem innerBody_eq_modify (size i j : Nat) (hj : j ≤ size) (m : Matrix) :
    innerBody size i m j = List.modify (fun row => rowWrite size i row j) i m := by
  have h1 : Js.rem ((i : Int) + j) size = (((i + j) % size : Nat) : Int) := by
    rw [← Js.rem_natCast]; norm_cast
  have h2 : Js.rem ((i : Int) - j + size) size = (((i + size - j) % size : Nat) : Int) := by
    rw [← Js.rem_natCast]
    congr 1
    omega
  unfold innerBody setCell
  rw [h1, h2, List.modify_modify_eq]
  congr 1

theorem foldl_innerBody_eq_modify (size i : Nat) (js : List Nat) (hjs : ∀ j ∈ js, j ≤ size)
    (m : Matrix) :
    js.foldl (innerBody size i) m
      = List.modify (fun row => js.foldl (rowWrite size i) row) i m := by
  induction js generalizing m with
  | nil =>
    simp only [List.foldl_nil]
    exact (List.modify_id i m).symm
  | cons j js ih =>
    simp only [List.foldl_cons]
    rw [ih (fun x hx => hjs x (List.mem_cons_of_mem _ hx)),
      innerBody_eq_modify size i j (hjs j (List.mem_cons_self _ _)), List.modify_modify_eq]
    rfl

theorem innerLoop_eq_modify (size i : Nat) (m : Matrix) :
    innerLoop size i m
      = List.modify (fun row => (List.range' 1 (size / 2)).foldl (rowWrite size i) row) i m := by
  unfold innerLoop
  apply foldl_innerBody_eq_modify
  intro j hj
  have := List.mem_range'_1.mp hj
  omega

theorem length_foldl_rowWrite (size i : Nat) (js : List Nat) (row : List String) :
    (js.foldl (rowWrite size i) row).length = row.length := by
  induction js generalizing row with
  | nil => rfl
  | cons j js ih => simp [List.foldl_cons, ih, rowWrite]

/-- What the inner loop has written into row `i` after the passes
`j = 1, …, t`, as long as `2 * t < size`: the `t` cells after position `i`
hold `'Win'`, the `t` cells before it hold `'Lose'`, the others are untouched. -/
theorem getElem?_foldl_rowWrite (size i t : Nat) (hi : i < size) (ht : 2 * t < size)
    (row : List String) (hlen : row.length = size) (k : Nat) (hk : k < size) :
    ((List.range' 1 t).foldl (rowWrite size i) row)[k]?
      = if 1 ≤ (k + size - i) % size ∧ (k + size - i) % size ≤ t then some "Win"
        else if 1 ≤ (i + size - k) % size ∧ (i + size - k) % size ≤ t then some "Lose"
        else row[k]? := by
  induction t with
  | zero =>
    simp only [List.range'_zero, List.foldl_nil]
    rw [if_neg (by omega), if_neg (by omega)]
  | succ t ih =>
    have ih := ih (by omega)
    have hl := length_foldl_rowWrite size i (List.range' 1 t) row
    rw [List.range'_1_concat, List.foldl_append, List.foldl_cons, List.foldl_nil]
    rw [rowWrite, List.getElem?_set, List.getElem?_set, ih, List.length_set, hl, hlen]
    have e1 := Js.mod_once (show i + (1 + t) < 2 * size by omega)
    have e2 := Js.sub_mod_once hi (show 1 + t ≤ size by omega)
    have e3 := Js.sub_mod_once hk (Nat.le_of_lt hi)
    have e4 := Js.sub_mod_once hi (Nat.le_of_lt hk)
    generalize (i + (1 + t)) % size = a at e1 ⊢
    generalize (i + size - (1 + t)) % size = b at e2 ⊢
    generalize (k + size - i) % size = c at e3 ⊢
    generalize (i + size - k) % size = d at e4 ⊢
    have hac : a = k ↔ c = t + 1 := by
      obtain ⟨ha, e1⟩ := e1
      obtain ⟨hc, e3⟩ := e3
      clear e2 e4 ih hl hlen
      omega
    have hbd : b = k ↔ d = t + 1 := by
      obtain ⟨hb, e2⟩ := e2
      obtain ⟨hd, e4⟩ := e4
      clear e1 e3 ih hl hlen hac
      omega
    have hcd : c + d = size ∨ (c = 0 ∧ d = 0) := by
      obtain ⟨hc, e3⟩ := e3
      obtain ⟨hd, e4⟩ := e4
      clear e1 e2 ih hl hlen hac hbd
      omega
    rw [if_pos e1.1, if_pos e2.1]
    by_cases h1 : d = t + 1
    · rw [if_pos (hbd.mpr h1), if_neg (by omega), if_pos (by omega)]
    · rw [if_neg (fun h => h1 (hbd.mp h))]
      by_cases h2 : c = t + 1
      · rw [if_pos (hac.mpr h2), if_pos (by omega)]
      · rw [if_neg (fun h => h2 (hac.mp h))]
        have hc : (1 ≤ c ∧ c ≤ t + 1) ↔ (1 ≤ c ∧ c ≤ t) := by omega
        have hd : (1 ≤ d ∧ d ≤ t + 1) ↔ (1 ≤ d ∧ d ≤ t) := by omega
        simp only [hc, hd]

theorem getElem?_foldl_modify {α : Type} (F : Nat → α → α) (is : List Nat) (hnd : is.Nodup)
    (m : List α) (i : Nat) :
    (is.foldl (fun m i => List.modify (F i) i m) m)[i]?
      = if i ∈ is then (m[i]?).map (F i) else m[i]? := by
  induction is generalizing m with
  | nil => simp
  | cons j js ih =>
    obtain ⟨hj, hjs⟩ := List.nodup_cons.mp hnd
    rw [List.foldl_cons, ih hjs, List.getElem?_modify]
    by_cases hij : i = j
    · subst hij
      simp [hj]
    · have hji : ¬ j = i := fun h => hij h.symm
      simp [hij, hji]

/-- Row `i` of the finished table is the initial row of `'Draw'` cells after
the inner loop for `i`: the inner loops for the other rows leave it alone. -/
theorem createWinMatrix_getElem? (moves : List String) (i : Nat) (hi : i < moves.length) :
    (Rules.createWinMatrix moves)[i]?
      = some ((List.range' 1 (moves.length / 2)).foldl (rowWrite moves.length i)
          (List.replicate moves.length "Draw")) := by
  unfold Rules.createWinMatrix
  simp only [innerLoop_eq_modify]
  rw [getElem?_foldl_modify
    (fun i row => (List.range' 1 (moves.length / 2)).foldl (rowWrite moves.length i) row)
    (List.range moves.length) (List.nodup_range _)]
  simp [hi]

/-- The cell in row `i` and column `k` of the finished table, for an odd
number of moves. -/
theorem createWinMatrix_cell (moves : List String) (hodd : moves.length % 2 = 1)
    (i k : Nat) (hi : i < moves.length) (hk : k < moves.length) :
    ((Rules.createWinMatrix moves)[i]?).bind (fun row => row[k]?)
      = if 1 ≤ (k + moves.length - i) % moves.length
            ∧ (k + moves.length - i) % moves.length ≤ moves.length / 2 then some "Win"
        else if 1 ≤ (i + moves.length - k) % moves.length
            ∧ (i + moves.length - k) % moves.length ≤ moves.length / 2 then some "Lose"
        else some "Draw" := by
  rw [createWinMatrix_getElem? moves i hi, Option.some_bind,
    getElem?_foldl_rowWrite moves.length i (moves.length / 2) hi (by omega) _
      (List.length_replicate _ _) k hk,
    List.getElem?_replicate_of_lt hk]

/-- The same cell, read through `getResult` with the names at positions `i`
and `k` of a duplicate-free list. -/
theorem getResult_eq (moves : List String) (hodd : moves.length % 2 = 1) (hnd : moves.Nodup)
    (i k : Nat) (a b : String) (ha : moves[i]? = some a) (hb : moves[k]? = some b) :
    (Rules.new moves).getResult a b
      = Js.Completion.value
          (if 1 ≤ (k + moves.length - i) % moves.length
              ∧ (k + moves.length - i) % moves.length ≤ moves.length / 2 then some "Win"
           else if 1 ≤ (i + moves.length - k) % moves.length
              ∧ (i + moves.length - k) % moves.length ≤ moves.length / 2 then some "Lose"
           else some "Draw") := by
  have hi : i < moves.length := (List.getElem?_eq_some.mp ha).1
  have hk : k < moves.length := (List.getElem?_eq_some.mp hb).1
  have hc := createWinMatrix_cell moves hodd i k hi hk
  rw [createWinMatrix_getElem? moves i hi, Option.some_bind] at hc
  unfold Rules.getResult Rules.new
  simp only [Js.indexOf_getElem hnd ha, Js.indexOf_getElem hnd hb, Js.index_natCast,
    createWinMatrix_getElem? moves i hi, hc]

/-- The cyclic distances between two positions `i` and `k` of a list of
`n` moves: both are zero when `k = i`, otherwise they add up to `n`. -/
theorem cyclic_distances {n i k : Nat} (hi : i < n) (hk : k < n) :
    (k + n - i) % n < n ∧ (i + n - k) % n < n
      ∧ (((k + n - i) % n = 0 ∧ (i + n - k) % n = 0 ∧ k = i)
        ∨ ((k + n - i) % n + (i + n - k) % n = n ∧ k ≠ i
            ∧ 1 ≤ (k + n - i) % n ∧ 1 ≤ (i + n - k) % n)) := by
  have e3 := Js.sub_mod_once hk (Nat.le_of_lt hi)
  have e4 := Js.sub_mod_once hi (Nat.le_of_lt hk)
  omega

/-- A position `k` is `j` steps after `i` on the cycle exactly when the
forward distance from `i` to `k` is `j`. -/
theorem forward_iff {n i k j : Nat} (hi : i < n) (hk : k < n) (hj : j < n) :
    k = (i + j) % n ↔ (k + n - i) % n = j := by
  have e1 := Js.mod_once (show i + j < 2 * n by omega)
  have e3 := Js.sub_mod_once hk (Nat.le_of_lt hi)
  omega

/-- A position `k` is `j` steps before `i` on the cycle exactly when the
backward distance from `i` to `k` is `j`. -/
theorem backward_iff {n i k j : Nat} (hi : i < n) (hk : k < n) (hj : j < n) :
    k = (i + n - j) % n ↔ (i + n - k) % n = j := by
  have e2 := Js.sub_mod_once hi (Nat.le_of_lt hj)
  have e4 := Js.sub_mod_once hi (Nat.le_of_lt hk)
  omega

/-- The mathematical remainder of `i - j` is the index `(i - j + n) % n`
that `createWinMatrix` writes. -/
theorem emod_sub_eq {n i j : Nat} (hj : j ≤ n) :
    ((i : Int) - j) % (n : Int) = (((i + n - j) % n : Nat) : Int) := by
  have h : ((i : Int) - j) % (n : Int) = ((i : Int) - j + n) % (n : Int) :=
    (Int.add_emod_self).symm
  rw [h]
  have h2 : (i : Int) - j + n = ((i + n - j : Nat) : Int) := by omega
  rw [h2]
  norm_cast

/-- The three results of `getResult` in terms of the cyclic distances, for
an odd number of distinct moves. -/
theorem getResult_iff (moves : List String) (hodd : moves.length % 2 = 1) (hnd : moves.Nodup)
    (i k : Nat) (a b : String) (ha : moves[i]? = some a) (hb : moves[k]? = some b) :
    ((Rules.new moves).getResult a b = Js.Completion.value (some "Win")
        ↔ 1 ≤ (k + moves.length - i) % moves.length
          ∧ (k + moves.length - i) % moves.length ≤ moves.length / 2)
    ∧ ((Rules.new moves).getResult a b = Js.Completion.value (some "Lose")
        ↔ 1 ≤ (i + moves.length - k) % moves.length
          ∧ (i + moves.length - k) % moves.length ≤ moves.length / 2)
    ∧ ((Rules.new moves).getResult a b = Js.Completion.value (some "Draw") ↔ k = i) := by
  have hi : i < moves.length := (List.getElem?_eq_some.mp ha).1
  have hk : k < moves.length := (List.getElem?_eq_some.mp hb).1
  have hd := cyclic_distances hi hk
  rw [getResult_eq moves hodd hnd i k a b ha hb]
  generalize (k + moves.length - i) % moves.length = c at hd ⊢
  generalize (i + moves.length - k) % moves.length = d at hd ⊢
  have hWL : (Js.Completion.value (some "Win") = Js.Completion.value (some "Lose")) = False := by
    decide
  have hWD : (Js.Completion.value (some "Win") = Js.Completion.value (some "Draw")) = False := by
    decide
  have hLW : (Js.Completion.value (some "Lose") = Js.Completion.value (some "Win")) = False := by
    decide
  have hLD : (Js.Completion.value (some "Lose") = Js.Completion.value (some "Draw")) = False := by
    decide
  have hDW : (Js.Completion.value (some "Draw") = Js.Completion.value (some "Win")) = False := by
    decide
  have hDL : (Js.Completion.value (some "Draw") = Js.Completion.value (some "Lose")) = False := by
    decide
  by_cases h1 : 1 ≤ c ∧ c ≤ moves.length / 2
  · rw [if_pos h1]
    simp only [hWL, hWD, true_iff, false_iff]
    exact ⟨h1, by omega, by omega⟩
  · rw [if_neg h1]
    by_cases h2 : 1 ≤ d ∧ d ≤ moves.length / 2
    · rw [if_pos h2]
      simp only [hLW, hLD, true_iff, false_iff]
      exact ⟨h1, h2, by omega⟩
    · rw [if_neg h2]
      simp only [hDW, hDL, true_iff, false_iff]
      exact ⟨h1, h2, by omega⟩

/-- Counting the moves that satisfy `p`, when the positions of these moves
are the `h` different positions `f 1, …, f h`. -/
theorem length_filter_of_positions (moves : List String) (hnd : moves.Nodup)
    (p : String → Bool) (f : Nat → Nat) (h : Nat)
    (hlt : ∀ j, 1 ≤ j → j ≤ h → f j < moves.length)
    (hinj : ∀ j1 j2, 1 ≤ j1 → j1 ≤ h → 1 ≤ j2 → j2 ≤ h → f j1 = f j2 → j1 = j2)
    (hp : ∀ k b, moves[k]? = some b → (p b = true ↔ ∃ j, 1 ≤ j ∧ j ≤ h ∧ k = f j)) :
    (moves.filter p).length = h := by
  have hperm : List.Perm (moves.filter p)
      ((List.range' 1 h).map (fun j => moves.getD (f j) "")) := by
    rw [List.perm_ext_iff_of_nodup (hnd.filter p)]
    · intro b
      simp only [List.mem_filter, List.mem_map, List.mem_range'_1]
      constructor
      · rintro ⟨hb, hpb⟩
        obtain ⟨k, hk⟩ := List.mem_iff_getElem?.mp hb
        obtain ⟨j, hj1, hj2, rfl⟩ := (hp k b hk).mp hpb
        refine ⟨j, ⟨hj1, by omega⟩, ?_⟩
        rw [List.getD_eq_getElem?_getD, hk, Option.getD_some]
      · rintro ⟨j, ⟨hj1, hj2⟩, rfl⟩
        have hj3 : j ≤ h := by omega
        have hk : moves[f j]? = some (moves.getD (f j) "") := by
          rw [List.getD_eq_getElem _ _ (hlt j hj1 hj3), List.getElem?_eq_getElem]
        exact ⟨List.mem_iff_getElem?.mpr ⟨f j, hk⟩, (hp (f j) _ hk).mpr ⟨j, hj1, hj3, rfl⟩⟩
    · apply List.Nodup.map_on _ (List.nodup_range' 1 h)
      intro x hx y hy hxy
      have hx1 := List.mem_range'_1.mp hx
      have hy1 := List.mem_range'_1.mp hy
      have hfx := hlt x hx1.1 (by omega)
      have hfy := hlt y hy1.1 (by omega)
      apply hinj x y hx1.1 (by omega) hy1.1 (by omega)
      rw [List.getD_eq_getElem _ _ hfx, List.getD_eq_getElem _ _ hfy] at hxy
      exact (hnd.getElem_inj_iff).mp hxy
  rw [hperm.length_eq, List.length_map, List.length_range']

/-- The three results of `getResult` in terms of steps on the cycle, for an
odd number of distinct moves. -/
theorem getResult_steps (moves : List String) (hodd : moves.length % 2 = 1) (hnd : moves.Nodup)
    (i k : Nat) (a b : String) (ha : moves[i]? = some a) (hb : moves[k]? = some b) :
    ((Rules.new moves).getResult a b = Js.Completion.value (some "Win")
        ↔ ∃ j, 1 ≤ j ∧ j ≤ moves.length / 2 ∧ k = (i + j) % moves.length)
    ∧ ((Rules.new moves).getResult a b = Js.Completion.value (some "Lose")
        ↔ ∃ j, 1 ≤ j ∧ j ≤ moves.length / 2 ∧ k = (i + moves.length - j) % moves.length)
    ∧ ((Rules.new moves).getResult a b = Js.Completion.value (some "Draw") ↔ k = i) := by
  have hi : i < moves.length := (List.getElem?_eq_some.mp ha).1
  have hk : k < moves.length := (List.getElem?_eq_some.mp hb).1
  obtain ⟨hW, hL, hD⟩ := getResult_iff moves hodd hnd i k a b ha hb
  have hd := cyclic_distances hi hk
  refine ⟨hW.trans ⟨?_, ?_⟩, hL.trans ⟨?_, ?_⟩, hD⟩
  · intro h
    exact ⟨_, h.1, h.2, (forward_iff hi hk hd.1).mpr rfl⟩
  · rintro ⟨j, hj1, hj2, hkj⟩
    rw [(forward_iff hi hk (by omega)).mp hkj]
    exact ⟨hj1, hj2⟩
  · intro h
    exact ⟨_, h.1, h.2, (backward_iff hi hk hd.2.1).mpr rfl⟩
  · rintro ⟨j, hj1, hj2, hkj⟩
    rw [(backward_iff hi hk (by omega)).mp hkj]
    exact ⟨hj1, hj2⟩

/-- C1 (`demo.js`): for an odd number `N ≥ 3` of pairwise distinct moves,
`Rules.getResult` follows the cyclic half rule. With `a` at position `i`:
against the move `j` steps later, `1 ≤ j ≤ ⌊N/2⌋`, the result is `'Win'`;
against the move `j` steps earlier it is `'Lose'`; against `a` itself it is
`'Draw'`. These are the only cases: the result against the move at position
`k` is `'Win'` only if `k = (i + j) mod N` for such a `j`, `'Lose'` only if
`k = (i - j) mod N` for such a `j`, and `'Draw'` only if `k = i`; so `a` wins
against `⌊N/2⌋` moves, loses against `⌊N/2⌋` moves and draws against one.
Every cell written by `createWinMatrix` therefore still holds the value
written. -/
theorem getResult_cyclic_half_rule (moves : List String) (hodd : moves.length % 2 = 1)
    (h3 : 3 ≤ moves.length) (hnd : moves.Nodup) :
    (∀ (i j : Nat) (a b : String), 1 ≤ j → j ≤ moves.length / 2 →
        moves[i]? = some a → moves[(i + j) % moves.length]? = some b →
        (Rules.new moves).getResult a b = Js.Completion.value (some "Win"))
    ∧ (∀ (i j : Nat) (a b : String), 1 ≤ j → j ≤ moves.length / 2 →
        moves[i]? = some a → moves[(((i : Int) - j) % (moves.length : Int)).toNat]? = some b →
        (Rules.new moves).getResult a b = Js.Completion.value (some "Lose"))
    ∧ (∀ a ∈ moves, (Rules.new moves).getResult a a = Js.Completion.value (some "Draw"))
    ∧ (∀ (i k : Nat) (a b : String), moves[i]? = some a → moves[k]? = some b →
        ((Rules.new moves).getResult a b = Js.Completion.value (some "Win")
          ↔ ∃ j : Nat, 1 ≤ j ∧ j ≤ moves.length / 2 ∧ k = (i + j) % moves.length)
        ∧ ((Rules.new moves).getResult a b = Js.Completion.value (some "Lose")
          ↔ ∃ j : Nat, 1 ≤ j ∧ j ≤ moves.length / 2
              ∧ (k : Int) = ((i : Int) - j) % (moves.length : Int))
        ∧ ((Rules.new moves).getResult a b = Js.Completion.value (some "Draw") ↔ k = i))
    ∧ (∀ a ∈ moves,
        (moves.filter fun b =>
            decide ((Rules.new moves).getResult a b = Js.Completion.value (some "Win"))).length
          = moves.length / 2
        ∧ (moves.filter fun b =>
            decide ((Rules.new moves).getResult a b = Js.Completion.value (some "Lose"))).length
          = moves.length / 2
        ∧ (moves.filter fun b =>
            decide ((Rules.new moves).getResult a b = Js.Completion.value (some "Draw"))).length
          = 1) := by
  have hhalf : moves.length / 2 < moves.length := by omega
  refine ⟨?_, ?_, ?_, ?_, ?_⟩
  · intro i j a b hj1 hj2 ha hb
    exact (getResult_steps moves hodd hnd i _ a b ha hb).1.mpr ⟨j, hj1, hj2, rfl⟩
  · intro i j a b hj1 hj2 ha hb
    rw [emod_sub_eq (by omega), Int.toNat_ofNat] at hb
    exact (getResult_steps moves hodd hnd i _ a b ha hb).2.1.mpr ⟨j, hj1, hj2, rfl⟩
  · intro a ha
    obtain ⟨i, hi⟩ := List.mem_iff_getElem?.mp ha
    exact (getResult_steps moves hodd hnd i i a a hi hi).2.2.mpr rfl
  · intro i k a b ha hb
    obtain ⟨hW, hL, hD⟩ := getResult_steps moves hodd hnd i k a b ha hb
    refine ⟨hW, hL.trans ⟨?_, ?_⟩, hD⟩
    · rintro ⟨j, hj1, hj2, hkj⟩
      refine ⟨j, hj1, hj2, ?_⟩
      rw [emod_sub_eq (by omega), hkj]
    · rintro ⟨j, hj1, hj2, hkj⟩
      refine ⟨j, hj1, hj2, ?_⟩
      rw [emod_sub_eq (by omega)] at hkj
      exact_mod_cast hkj
  · intro a ha
    obtain ⟨i, hia⟩ := List.mem_iff_getElem?.mp ha
    have hi : i < moves.length := (List.getElem?_eq_some.mp hia).1
    have hpos : 0 < moves.length := by omega
    refine ⟨?_, ?_, ?_⟩
    · apply length_filter_of_positions moves hnd _ (fun j => (i + j) % moves.length)
      · intro j _ _
        exact Nat.mod_lt _ hpos
      · intro j1 j2 _ h1 _ h2 h
        have e1 := (forward_iff hi (Nat.mod_lt _ hpos) (show j1 < moves.length by omega)).mp h.symm
        have e2 := (forward_iff hi (Nat.mod_lt _ hpos) (show j2 < moves.length by omega)).mp rfl
        omega
      · intro k b hb
        rw [decide_eq_true_iff]
        exact (getResult_steps moves hodd hnd i k a b hia hb).1
    · apply length_filter_of_positions moves hnd _
        (fun j => (i + moves.length - j) % moves.length)
      · intro j _ _
        exact Nat.mod_lt _ hpos
      · intro j1 j2 _ h1 _ h2 h
        have e1 := (backward_iff hi (Nat.mod_lt _ hpos) (show j1 < moves.length by omega)).mp h.symm
        have e2 := (backward_iff hi (Nat.mod_lt _ hpos) (show j2 < moves.length by omega)).mp rfl
        omega
      · intro k b hb
        rw [decide_eq_true_iff]
        exact (getResult_steps moves hodd hnd i k a b hia hb).2.1
    · apply length_filter_of_positions moves hnd _ (fun _ => i)
      · intro j _ _
        exact hi
      · intro j1 j2 _ _ _ _ _
        omega
      · intro k b hb
        rw [decide_eq_true_iff]
        refine (getResult_steps moves hodd hnd i k a b hia hb).2.2.trans ⟨?_, ?_⟩
        · intro h
          exact ⟨1, le_refl 1, le_refl 1, h⟩
        · rintro ⟨j, _, _, h⟩
          exact h

/-- C1, on the list `rock Spock paper lizard scissors`: the hypotheses hold,
`rock` wins against `paper` (two steps later), loses to `lizard` (two steps
earlier) and wins against two moves in all. -/
theorem getResult_cyclic_half_rule_witness :
    (Rules.new ["rock", "Spock", "paper", "lizard", "scissors"]).getResult "rock" "paper"
        = Js.Completion.value (some "Win")
    ∧ (Rules.new ["rock", "Spock", "paper", "lizard", "scissors"]).getResult "rock" "lizard"
        = Js.Completion.value (some "Lose")
    ∧ (["rock", "Spock", "paper", "lizard", "scissors"].filter fun b =>
          decide ((Rules.new ["rock", "Spock", "paper", "lizard", "scissors"]).getResult "rock" b
            = Js.Completion.value (some "Win"))).length = 5 / 2 :=
  have h := getResult_cyclic_half_rule ["rock", "Spock", "paper", "lizard", "scissors"]
    (by decide) (by decide) (by decide)
  ⟨h.1 0 2 "rock" "paper" (by decide) (by decide) rfl rfl,
    h.2.1 0 2 "rock" "lizard" (by decide) (by decide) rfl rfl,
    (h.2.2.2.2 "rock" (by decide)).1⟩

/-- C2 (`demo.js`): for an odd number `N ≥ 3` of pairwise distinct moves and
two different positions `i ≠ j`, the results of `getResult` for the two
orders of the moves at `i` and `j` are strict opposites: one is `'Win'` and
the other `'Lose'`, and neither is `'Draw'`. -/
theorem getResult_strict_opposites (moves : List String) (hodd : moves.length % 2 = 1)
    (_h3 : 3 ≤ moves.length) (hnd : moves.Nodup) (i j : Nat) (a b : String) (hij : i ≠ j)
    (ha : moves[i]? = some a) (hb : moves[j]? = some b) :
    (((Rules.new moves).getResult a b = Js.Completion.value (some "Win")
        ∧ (Rules.new moves).getResult b a = Js.Completion.value (some "Lose"))
      ∨ ((Rules.new moves).getResult a b = Js.Completion.value (some "Lose")
        ∧ (Rules.new moves).getResult b a = Js.Completion.value (some "Win")))
    ∧ (Rules.new moves).getResult a b ≠ Js.Completion.value (some "Draw")
    ∧ (Rules.new moves).getResult b a ≠ Js.Completion.value (some "Draw") := by
  have hi : i < moves.length := (List.getElem?_eq_some.mp ha).1
  have hj : j < moves.length := (List.getElem?_eq_some.mp hb).1
  obtain ⟨hW, hL, hD⟩ := getResult_iff moves hodd hnd i j a b ha hb
  obtain ⟨hW2, hL2, hD2⟩ := getResult_iff moves hodd hnd j i b a hb ha
  have hd := cyclic_distances hi hj
  refine ⟨?_, fun h => hij (hD.mp h).symm, fun h => hij (hD2.mp h)⟩
  by_cases hc : (j + moves.length - i) % moves.length ≤ moves.length / 2
  · exact Or.inl ⟨hW.mpr ⟨by omega, hc⟩, hL2.mpr ⟨by omega, hc⟩⟩
  · exact Or.inr ⟨hL.mpr ⟨by omega, by omega⟩, hW2.mpr ⟨by omega, by omega⟩⟩

/-- C2, on the list `rock Spock paper lizard scissors` with `rock` and
`lizard`: the hypotheses hold, and the results are `'Lose'` and `'Win'`. -/
theorem getResult_strict_opposites_witness :
    (((Rules.new ["rock", "Spock", "paper", "lizard", "scissors"]).getResult "rock" "lizard"
          = Js.Completion.value (some "Win")
        ∧ (Rules.new ["rock", "Spock", "paper", "lizard", "scissors"]).getResult "lizard" "rock"
          = Js.Completion.value (some "Lose"))
      ∨ ((Rules.new ["rock", "Spock", "paper", "lizard", "scissors"]).getResult "rock" "lizard"
          = Js.Completion.value (some "Lose")
        ∧ (Rules.new ["rock", "Spock", "paper", "lizard", "scissors"]).getResult "lizard" "rock"
          = Js.Completion.value (some "Win")))
    ∧ (Rules.new ["rock", "Spock", "paper", "lizard", "scissors"]).getResult "rock" "lizard"
        ≠ Js.Completion.value (some "Draw")
    ∧ (Rules.new ["rock", "Spock", "paper", "lizard", "scissors"]).getResult "lizard" "rock"
        ≠ Js.Completion.value (some "Draw") :=
  getResult_strict_opposites ["rock", "Spock", "paper", "lizard", "scissors"]
    (by decide) (by decide) (by decide) 0 3 "rock" "lizard" (by decide) rfl rfl

/-! ### `src/demo.js`: the usage example and the round -/

/-- C6 (`demo.js`): the claim fails on the code. With the moves
`rock Spock paper lizard scissors`, the user who plays `rock` against
`scissors` gets `'Lose'` although rock beats scissors, and the whole table is
the classic one turned round: the result is `'Win'` exactly when the computer
move beats the user move, `'Lose'` exactly when the user move beats the
computer move, and `'Draw'` exactly for equal moves. -/
theorem getResult_example_inverts_classic_table :
    (Rules.new exampleMoves).getResult "rock" "scissors" = Js.Completion.value (some "Lose")
    ∧ classicBeats "rock" "scissors" = true
    ∧ ∀ i j : Fin 5,
        ((Rules.new exampleMoves).getResult (exampleMoves.getD i "") (exampleMoves.getD j "")
            = Js.Completion.value (some "Win")
          ↔ classicBeats (exampleMoves.getD j "") (exampleMoves.getD i "") = true)
        ∧ ((Rules.new exampleMoves).getResult (exampleMoves.getD i "") (exampleMoves.getD j "")
            = Js.Completion.value (some "Lose")
          ↔ classicBeats (exampleMoves.getD i "") (exampleMoves.getD j "") = true)
        ∧ ((Rules.new exampleMoves).getResult (exampleMoves.getD i "") (exampleMoves.getD j "")
            = Js.Completion.value (some "Draw")
          ↔ i = j) := by
  decide

/-- The two ways in which `play` ends: with a `TypeError`, or with the five
lines HMAC, user move, computer move, result and key, in this order. -/
theorem play_events_cases {Dbl : Type} (rt : Js.Runtime Dbl) (g : Game)
    (userMove : Option String) (random : Dbl) (randomBytes : List Nat) :
    (Game.play rt g userMove random randomBytes).2 = [Event.typeError]
    ∨ ∃ (move hmac computerMove key : String) (v : Verdict),
        userMove = some move
        ∧ (Game.play rt g userMove random randomBytes).2
            = [Event.hmac hmac, Event.yourMove move, Event.computerMove computerMove,
                Event.verdict v, Event.hmacKey key] := by
  unfold Game.play
  simp only
  split
  · split
    · exact Or.inr ⟨_, _, _, _, _, rfl, rfl⟩
    · exact Or.inl rfl
  · exact Or.inl rfl

theorem hmacFollowsRead_append (pre : List Event) {rest : List Event}
    (hpre : ∀ h, Event.hmac h ∉ pre) (hrest : HmacFollowsRead rest) :
    HmacFollowsRead (pre ++ rest) := by
  intro n h hn
  by_cases hlt : n < pre.length
  · rw [List.getElem?_append_left hlt] at hn
    exact absurd (List.getElem?_mem hn) (hpre h)
  · have hge : pre.length ≤ n := Nat.le_of_not_lt hlt
    rw [List.getElem?_append_right hge] at hn
    obtain ⟨input, hpos, hprev⟩ := hrest _ h hn
    refine ⟨input, by omega, ?_⟩
    rw [List.getElem?_append_right (by omega)]
    have e : n - 1 - pre.length = n - pre.length - 1 := by omega
    rw [e]
    exact hprev

theorem hmacFollowsRead_read_hmac {rest : List Event} (input h0 : String)
    (hrest : HmacFollowsRead rest) :
    HmacFollowsRead (Event.read input :: Event.hmac h0 :: rest) := by
  intro n h hn
  match n, hn with
  | 0, hn => cases hn
  | 1, _ => exact ⟨input, by omega, rfl⟩
  | n + 2, hn =>
    simp only [List.getElem?_cons_succ] at hn
    obtain ⟨input2, hpos, hprev⟩ := hrest n h hn
    refine ⟨input2, by omega, ?_⟩
    have e : n + 2 - 1 = (n - 1) + 2 := by omega
    rw [e]
    simpa only [List.getElem?_cons_succ] using hprev

theorem hmacFollowsRead_nil : HmacFollowsRead [] := by
  intro n h hn
  simp at hn

theorem hmac_not_mem_displayMenu (g : Game) (h : String) :
    Event.hmac h ∉ Game.displayMenu g := by
  unfold Game.displayMenu
  simp

/-- In every run of `prompt`, whatever the moves, the random values and the
input lines are, an HMAC is printed only directly after a line of input has
been read: no round shows its HMAC before the user has answered. -/
theorem prompt_hmacFollowsRead {Dbl : Type} (rt : Js.Runtime Dbl) (random : Nat → Dbl)
    (randomBytes : Nat → List Nat) (stdin : List String) :
    ∀ (game : Game) (round : Nat),
      HmacFollowsRead (prompt rt random randomBytes game round stdin) := by
  induction stdin with
  | nil =>
    intro game round
    unfold prompt
    exact hmacFollowsRead_append [Event.question] (by simp) hmacFollowsRead_nil
  | cons input rest ih =>
    intro game round
    unfold prompt
    simp only [List.cons_append, List.nil_append]
    apply hmacFollowsRead_append [Event.question] (by simp)
    split
    · apply hmacFollowsRead_append [Event.read input] (by simp)
      apply hmacFollowsRead_append (Game.displayHelp game)
        (by simp [Game.displayHelp])
      exact ih game round
    · split
      · exact hmacFollowsRead_append [Event.read input, Event.close] (by simp)
          hmacFollowsRead_nil
      · split
        · rcases play_events_cases rt game (Js.indexMinusOne game.moves (rt.toNumber input))
            (random round) (randomBytes round)
            with hp | ⟨move, hmac, computerMove, key, v, _, hp⟩
          · simp only [hp, List.mem_singleton, if_true]
            exact hmacFollowsRead_append [Event.read input, Event.typeError]
              (by simp) hmacFollowsRead_nil
          · simp only [hp]
            rw [if_neg (by simp)]
            apply hmacFollowsRead_read_hmac
            apply hmacFollowsRead_append
              [Event.yourMove move, Event.computerMove computerMove,
                Event.verdict v, Event.hmacKey key] (by simp)
            exact ih _ _
        · apply hmacFollowsRead_append [Event.read input] (by simp)
          apply hmacFollowsRead_append [Event.invalidMove] (by simp)
          apply hmacFollowsRead_append (Game.displayMenu game)
            (hmac_not_mem_displayMenu game)
          exact ih game round

/-- C8 (`demo.js`): the claim fails on the code. `Game.play` takes the user
move as its argument: whenever it prints an HMAC, the next line is the user
move it was called with. On the moves `rock paper scissors` with the input
line `1`, the line is read first, and only then are the computer move drawn
and the HMAC printed, together with both moves, the result and the key. In
every run of the script an HMAC line comes directly after a line of input
has been read. -/
theorem main_reads_user_move_before_commitment :
    (∀ (Dbl : Type) (rt : Js.Runtime Dbl) (g : Game) (userMove : Option String) (random : Dbl)
        (randomBytes : List Nat),
        (Game.play rt g userMove random randomBytes).2 = [Event.typeError]
        ∨ ∃ (move hmac computerMove key : String) (v : Verdict),
            userMove = some move
            ∧ (Game.play rt g userMove random randomBytes).2
                = [Event.hmac hmac, Event.yourMove move, Event.computerMove computerMove,
                    Event.verdict v, Event.hmacKey key])
    ∧ main Js.exampleRuntime ["rock", "paper", "scissors"] (fun _ => 0)
          (fun _ => List.replicate 32 0) ["1"]
        = [Event.availableMoves, Event.menuItem 1 "rock", Event.menuItem 2 "paper",
            Event.menuItem 3 "scissors", Event.exitItem, Event.helpItem,
            Event.question, Event.read "1",
            Event.hmac (KeyGenerator.calculateHMAC Js.exampleRuntime
              (KeyGenerator.generateKey (List.replicate 32 0)) "rock"),
            Event.yourMove "rock", Event.computerMove "rock", Event.verdict Verdict.draw,
            Event.hmacKey (KeyGenerator.generateKey (List.replicate 32 0)),
            Event.question]
    ∧ (∀ (Dbl : Type) (rt : Js.Runtime Dbl) (moves : List String) (random : Nat → Dbl)
        (randomBytes : Nat → List Nat) (stdin : List String),
        HmacFollowsRead (main rt moves random randomBytes stdin)) := by
  refine ⟨?_, by decide, ?_⟩
  · intro Dbl rt g userMove random randomBytes
    exact play_events_cases rt g userMove random randomBytes
  · intro Dbl rt moves random randomBytes stdin
    unfold main
    exact hmacFollowsRead_append _ (hmac_not_mem_displayMenu _)
      (prompt_hmacFollowsRead rt random randomBytes stdin _ 0)

/-- The game that `play` leaves behind: the computer move is the one drawn
with `Math.random`, the key is the one generated from `crypto.randomBytes`. -/
theorem play_fst {Dbl : Type} (rt : Js.Runtime Dbl) (g : Game) (userMove : Option String)
    (random : Dbl) (bytes : List Nat) :
    (Game.play rt g userMove random bytes).1
      = Game.mk g.moves g.rules (Game.drawComputerMove rt g random)
          (some (KeyGenerator.generateKey bytes)) := by
  unfold Game.play
  simp only
  split
  · split <;> rfl
  · rfl

/-- The computer move that `play` discloses does not depend on the bytes of
`crypto.randomBytes`. -/
theorem filterMap_disclosedMove_play_round {Dbl : Type} (rt : Js.Runtime Dbl) (g : Game)
    (userMove : Option String) (random : Dbl) (bytes1 bytes2 : List Nat) :
    (Game.play rt g userMove random bytes1).2.filterMap Event.disclosedMove
      = (Game.play rt g userMove random bytes2).2.filterMap Event.disclosedMove := by
  unfold Game.play Game.getHMAC
  simp only
  cases Game.drawComputerMove rt g random with
  | none => rfl
  | some cm =>
    cases userMove with
    | none => rfl
    | some move =>
      simp only
      cases g.rules.getResult move cm <;> rfl

end Demo

/-! ### Both scripts: where the computer move comes from -/

/-- C10, counterexample: with the same moves, the same bytes from
`crypto.randomBytes` and the same input, the computer move follows the value
of `Math.random()`. In `GenerateKey.js` the run discloses `Rock` for the
value `0` and `Paper` for the value `1/2`; in `demo.js` the run discloses
`rock` for `0` and `paper` for `1/2`. -/
theorem computerMove_follows_mathRandom :
    (GenerateKey.Game.play Js.exampleRuntime ["Rock", "Paper", "Scissors"] 0
        (List.replicate 32 0) ["1"]).filterMap GenerateKey.Event.disclosedMove = ["Rock"]
    ∧ (GenerateKey.Game.play Js.exampleRuntime ["Rock", "Paper", "Scissors"] (2 ^ 52)
        (List.replicate 32 0) ["1"]).filterMap GenerateKey.Event.disclosedMove = ["Paper"]
    ∧ (Demo.Game.play Js.exampleRuntime (Demo.Game.new ["rock", "paper", "scissors"])
        (some "rock") 0 (List.replicate 32 0)).2.filterMap Demo.Event.disclosedMove = ["rock"]
    ∧ (Demo.Game.play Js.exampleRuntime (Demo.Game.new ["rock", "paper", "scissors"])
        (some "rock") (2 ^ 52) (List.replicate 32 0)).2.filterMap Demo.Event.disclosedMove
          = ["paper"] := by
  decide

/-- C10, amended: in `Game.play` of both scripts the computer move is
`this.moves[Math.floor(Math.random() * this.moves.length)]`, drawn from
`Math.random`, and only the key comes from `crypto.randomBytes`. For a fixed
move list, a fixed value of `Math.random()` and fixed input, the computer move
chosen and disclosed is the same whatever bytes `crypto.randomBytes` returns;
and the key is the hexadecimal form of those bytes whatever `Math.random()`
returns. -/
theorem computerMove_independent_of_randomBytes :
    (∀ (Dbl : Type) (rt : Js.Runtime Dbl) (moves : List String) (random : Dbl),
        GenerateKey.Game.drawComputerMove rt moves random
          = Js.index moves (rt.floorMul random moves.length))
    ∧ (∀ (Dbl : Type) (rt : Js.Runtime Dbl) (moves : List String) (random : Dbl)
        (bytes1 bytes2 : List Nat) (stdin : List String),
        (GenerateKey.Game.play rt moves random bytes1 stdin).filterMap
            GenerateKey.Event.disclosedMove
          = (GenerateKey.Game.play rt moves random bytes2 stdin).filterMap
            GenerateKey.Event.disclosedMove)
    ∧ (∀ (Dbl : Type) (rt : Js.Runtime Dbl) (moves : List String) (random : Dbl)
        (bytes : List Nat) (stdin : List String),
        (GenerateKey.Game.play rt moves random bytes stdin).filterMap
            GenerateKey.Event.disclosedKey = []
        ∨ (GenerateKey.Game.play rt moves random bytes stdin).filterMap
            GenerateKey.Event.disclosedKey = [Js.toHex bytes])
    ∧ (∀ (Dbl : Type) (rt : Js.Runtime Dbl) (g : Demo.Game) (userMove : Option String)
        (random : Dbl) (bytes : List Nat),
        (Demo.Game.play rt g userMove random bytes).1.computerMove
            = Js.index g.moves (rt.floorMul random g.moves.length)
        ∧ (Demo.Game.play rt g userMove random bytes).1.key
            = some (Js.toUpperCase (Js.toHex bytes)))
    ∧ (∀ (Dbl : Type) (rt : Js.Runtime Dbl) (g : Demo.Game) (userMove : Option String)
        (random : Dbl) (bytes1 bytes2 : List Nat),
        (Demo.Game.play rt g userMove random bytes1).2.filterMap Demo.Event.disclosedMove
          = (Demo.Game.play rt g userMove random bytes2).2.filterMap
            Demo.Event.disclosedMove) := by
  refine ⟨?_, ?_, ?_, ?_, ?_⟩
  · intro Dbl rt moves random
    rfl
  · intro Dbl rt moves random bytes1 bytes2 stdin
    exact GenerateKey.filterMap_disclosedMove_play rt moves random bytes1 bytes2 stdin
  · intro Dbl rt moves random bytes stdin
    exact GenerateKey.filterMap_disclosedKey_play rt moves random bytes stdin
  · intro Dbl rt g userMove random bytes
    rw [Demo.play_fst]
    exact ⟨rfl, rfl⟩
  · intro Dbl rt g userMove random bytes1 bytes2
    exact Demo.filterMap_disclosedMove_play_round rt g userMove random bytes1 bytes2
